import Mathlib

/-!
Verification of the annotation-extraction core of the zpy repository
(`zpy/image.py`): the segmentation-raster to annotation pipeline
(`seg_to_annotations`) and the run-length encoder (`binary_mask_to_rle`).

The embedding below translates the Python source into Lean:
pixels are rational triples, images are row-major lists of rows,
binary masks are lists of boolean rows.  External library routines that
the source calls (skimage `binary_opening`/`binary_closing`,
`measure.find_contours`, shapely `simplify`) are taken as explicit
function parameters of the pipeline; routines whose behaviour the
claims depend on (`ndi.binary_fill_holes`, shapely bounds/area,
numpy `unique`/`pad`/`ravel(order := F)`) are embedded from their
documented semantics exactly as the source uses them.
-/

namespace Zpy

/-- A pixel color: one 3-channel triplet, as in `img.reshape(-1, 3)` rows. -/
abbrev Color := ℚ × ℚ × ℚ

/-- A segmentation image: rows of 3-channel pixels. -/
abbrev Image := List (List Color)

/-- A binary mask: rows of booleans, `true` = foreground. -/
abbrev Mask := List (List Bool)

/-- Width of a mask, `mask.shape[1]`: the length of the first row. -/
def maskW (m : Mask) : Nat := (m.headD []).length

/-- The columns of a mask: column `c` is the list of row `r` entries at `c`. -/
def colsOf (m : Mask) : List (List Bool) :=
  (List.range (maskW m)).map (fun c => m.map (fun row => row.getD c false))

/-- Column-major flattening, `binary_mask.ravel(order := F)` on a Fortran
array (`np.asfortranarray`): all of column 0, then column 1, and so on. -/
def flattenF (m : Mask) : List Bool := (colsOf m).flatten

/-- A mask is rectangular: every row has the width of the first row. -/
def rect (m : Mask) : Prop := ∀ row ∈ m, row.length = maskW m

instance (m : Mask) : Decidable (rect m) := by
  unfold rect; infer_instance

/-- One step of run-length grouping: prepend value `b` to a run list,
extending the first run when it has the same value (`itertools.groupby`
groups equal consecutive values). -/
def addRun (b : Bool) : List (Bool × Nat) → List (Bool × Nat)
  | [] => [(b, 1)]
  | (b', n) :: r => if b = b' then (b', n + 1) :: r else (b, 1) :: (b', n) :: r

/-- Maximal runs of equal consecutive values, as `itertools.groupby` yields
them: each pair is (value, length of the run). -/
def runs (l : List Bool) : List (Bool × Nat) := l.foldr addRun []

/-- The `counts` list built by `binary_mask_to_rle`: the run lengths of the
flattened mask, with a leading 0 when the first run is foreground
(`if i == 0 and value == 1: counts.append(0)`). -/
def rleCounts (l : List Bool) : List Nat :=
  match runs l with
  | (true, n) :: r => 0 :: ((true, n) :: r).map Prod.snd
  | r => r.map Prod.snd

/-- The RLE dictionary produced by `binary_mask_to_rle`:
`counts` and `size`, with `size = list(binary_mask.shape)`. -/
structure RLE where
  counts : List Nat
  size : List Nat
  deriving DecidableEq, Inhabited

/-- Translation of `binary_mask_to_rle` (zpy/image.py, lines 106-120):
column-major traversal of the mask, grouped into run lengths, starting
with the background run (a zero-length one if the mask starts with
foreground), and `size = [height, width]`. -/
def binary_mask_to_rle (m : Mask) : RLE :=
  { counts := rleCounts (flattenF m), size := [m.length, maskW m] }

/-- Expansion of a run list back into the flat value list. -/
def expandRuns : List (Bool × Nat) → List Bool
  | [] => []
  | (b, n) :: r => List.replicate n b ++ expandRuns r

/-- Decoding of an alternating `counts` list: the first count is a run of
`b`, the next a run of `!b`, and so on (the COCO uncompressed-RLE
convention the spec describes, starting from background). -/
def decodeRuns : Bool → List Nat → List Bool
  | _, [] => []
  | b, n :: t => List.replicate n b ++ decodeRuns (!b) t

/-- Rebuild an `h × w` mask from its column-major flat list: entry `(r, c)`
sits at flat index `c * h + r`. -/
def unflattenF (h w : Nat) (flat : List Bool) : Mask :=
  (List.range h).map (fun r => (List.range w).map (fun c => flat.getD (c * h + r) false))

/-- Decoder for the RLE dictionary: read `counts` as alternating runs
starting with background and reshape column-major against `size`. -/
def rleDecode (rle : RLE) : Mask :=
  match rle.size with
  | [h, w] => unflattenF h w (decodeRuns false rle.counts)
  | _ => []

/-! ### Padding and hole filling -/

/-- Translation of `np.pad(masked_image, 1, pad_with, padder := False)`
(zpy/image.py line 169 with `pad_with`, lines 97-103): one ring of
background pixels around the mask. -/
def padMask (m : Mask) : Mask :=
  let w := maskW m
  let border := List.replicate (w + 2) false
  border :: (m.map (fun row => false :: (row ++ [false]))) ++ [border]

/-- Cell lookup in a mask, `false` outside the grid. -/
def getCell (m : Mask) (r c : Nat) : Bool := (m.getD r []).getD c false

/-- Whether `(r, c)` lies on the border of the grid of `m`. -/
def isBorderCell (m : Mask) (r c : Nat) : Bool :=
  decide (r = 0) || decide (c = 0) || decide (r + 1 = m.length) || decide (c + 1 = maskW m)

/-- Whether a 4-neighbour of `(r, c)` (or the cell itself) is reached. -/
def neighborReach (reach : Mask) (r c : Nat) : Bool :=
  getCell reach r c || getCell reach (r + 1) c || getCell reach r (c + 1) ||
    (decide (0 < r) && getCell reach (r - 1) c) ||
    (decide (0 < c) && getCell reach r (c - 1))

/-- One propagation step of background reachability from the border. -/
def reachStep (m : Mask) (reach : Mask) : Mask :=
  (List.range m.length).map (fun r => (List.range (maskW m)).map (fun c =>
    !(getCell m r c) && (isBorderCell m r c || neighborReach reach r c)))

/-- Background cells reachable from the border, by iterating the
propagation step to a fixed point (one step per cell suffices). -/
def reachFix (m : Mask) : Mask :=
  Nat.iterate (reachStep m) (m.length * maskW m + 1) []

/-- Embedding of `scipy.ndimage.binary_fill_holes` (zpy/image.py line 174):
a cell of the output is foreground iff it is foreground in the input or
it is a background cell not 4-connected to the border through background
cells (an enclosed hole). -/
def fillHoles (m : Mask) : Mask :=
  (List.range m.length).map (fun r => (List.range (maskW m)).map (fun c =>
    getCell m r c || !(getCell (reachFix m) r c)))

/-! ### Category discovery and mask isolation -/

/-- The reserved background color: the all-zero triplet
(`np.zeros(3)` in the source, line 146). -/
def bgColor : Color := (0, 0, 0)

/-- Strict lexicographic order on color triplets, the row order in which
`np.unique(img.reshape(-1, 3), axis := 0)` returns distinct rows. -/
def ColorLt (a b : Color) : Prop :=
  a.1 < b.1 ∨ (a.1 = b.1 ∧ (a.2.1 < b.2.1 ∨ (a.2.1 = b.2.1 ∧ a.2.2 < b.2.2)))

instance : DecidableRel ColorLt := fun a b => by
  unfold ColorLt; infer_instance

/-- Insert a color into a lexicographically sorted duplicate-free list,
keeping it sorted and duplicate-free. -/
def insertColor (c : Color) : List Color → List Color
  | [] => [c]
  | d :: t =>
    if ColorLt c d then c :: d :: t
    else if c = d then d :: t
    else d :: insertColor c t

/-- Embedding of `np.unique(img.reshape(-1, 3), axis := 0)` (line 136):
the distinct pixel colors of the image, in ascending lexicographic
order. -/
def uniqueColors (img : Image) : List Color := img.flatten.foldr insertColor []

/-- The binary mask of one category (lines 150-153): `true` exactly at the
pixels equal to the category color.  In the source this is the masked
image (every other pixel zeroed) sent through `color.rgb2gray`, whose
value is nonzero precisely on pixels of the (nonzero, nonnegative)
category color. -/
def categoryMask (img : Image) (c : Color) : Mask :=
  img.map (fun row => row.map (fun p => decide (p = c)))

/-! ### Per-contour geometry -/

/-- Translation of the contour remap loop (lines 194-196): a traced point
`(row, col)` in padded-image coordinates becomes `(x, y) = (col - 1, row - 1)`. -/
def remapPoint (p : ℚ × ℚ) : ℚ × ℚ := (p.2 - 1, p.1 - 1)

/-- Ring closure as in shapely `poly.exterior.coords`: the first vertex is
repeated at the end of the coordinate sequence. -/
def closeRing (pts : List (ℚ × ℚ)) : List (ℚ × ℚ) := pts ++ pts.take 1

/-- Flattening of a coordinate sequence,
`np.array(poly.exterior.coords).ravel().tolist()` (line 202). -/
def flattenCoords (pts : List (ℚ × ℚ)) : List ℚ :=
  pts.flatMap (fun p => [p.1, p.2])

/-- Regroup a flattened coordinate list into points (inverse of
`flattenCoords` on well-formed lists). -/
def unflattenPairs : List ℚ → List (ℚ × ℚ)
  | x :: y :: t => (x, y) :: unflattenPairs t
  | _ => []

/-- Minimum of a list of rationals (0 for the empty list). -/
def listMin : List ℚ → ℚ
  | [] => 0
  | x :: t => t.foldl min x

/-- Maximum of a list of rationals (0 for the empty list). -/
def listMax : List ℚ → ℚ
  | [] => 0
  | x :: t => t.foldl max x

/-- Shapely `poly.bounds` (line 208) of a polygon given by its exterior
vertices: `(min x, min y, max x, max y)`. -/
def polyBounds (pts : List (ℚ × ℚ)) : ℚ × ℚ × ℚ × ℚ :=
  (listMin (pts.map Prod.fst), listMin (pts.map Prod.snd),
   listMax (pts.map Prod.fst), listMax (pts.map Prod.snd))

/-- The per-contour bounding box of the source (lines 208-209):
`(x, y, max_x - x, max_y - y)` from the polygon bounds. -/
def polyBBox (pts : List (ℚ × ℚ)) : ℚ × ℚ × ℚ × ℚ :=
  let b := polyBounds pts
  (b.1, b.2.1, b.2.2.1 - b.1, b.2.2.2 - b.2.1)

/-- Cross product term of the shoelace formula. -/
def cross (p q : ℚ × ℚ) : ℚ := p.1 * q.2 - q.1 * p.2

/-- Cyclic shoelace sum over consecutive vertices, closing back to `first`. -/
def shoelaceAux (first : ℚ × ℚ) : List (ℚ × ℚ) → ℚ
  | [] => 0
  | [p] => cross p first
  | p :: q :: t => cross p q + shoelaceAux first (q :: t)

/-- Absolute value of a rational, written out so that it evaluates. -/
def ratAbs (q : ℚ) : ℚ := if q < 0 then -q else q

/-- Shapely `poly.area` (line 219) of a polygon without holes: half the
absolute cyclic shoelace sum of its exterior vertices. -/
def polyArea : List (ℚ × ℚ) → ℚ
  | [] => 0
  | p :: t => ratAbs (shoelaceAux p (p :: t)) / 2

/-- Shapely `MultiPolygon(polygons).bounds` (line 223): the bounds of all
member vertices together. -/
def multiBounds (polys : List (List (ℚ × ℚ))) : ℚ × ℚ × ℚ × ℚ :=
  polyBounds polys.flatten

/-- Shapely `MultiPolygon(polygons).area` (line 225).  GEOS computes the
area of a multi-part geometry as the sum of the areas of its members; no
union is taken, so overlapping members are counted twice. -/
def multiArea (polys : List (List (ℚ × ℚ))) : ℚ :=
  (polys.map polyArea).sum

/-- Envelope combination: pairwise min of the lower bounds and max of the
upper bounds of two `(minx, miny, maxx, maxy)` tuples. -/
def combine2 (a b : ℚ × ℚ × ℚ × ℚ) : ℚ × ℚ × ℚ × ℚ :=
  (min a.1 b.1, min a.2.1 b.2.1, max a.2.2.1 b.2.2.1, max a.2.2.2 b.2.2.2)

/-- Envelope of a list of `(minx, miny, maxx, maxy)` bounds. -/
def combineBounds : List (ℚ × ℚ × ℚ × ℚ) → ℚ × ℚ × ℚ × ℚ
  | [] => (0, 0, 0, 0)
  | b :: t => t.foldl combine2 b

/-- The bounds `(x, y, x + w, y + h)` of a bbox `(x, y, w, h)`. -/
def bboxToBounds (b : ℚ × ℚ × ℚ × ℚ) : ℚ × ℚ × ℚ × ℚ :=
  (b.1, b.2.1, b.1 + b.2.2.1, b.2.1 + b.2.2.2)

/-! ### Float normalization -/

/-- Translation of lines 204-206: the normalized copy of a flattened
segmentation list.  The source divides entries at even index (the x
coordinates) by `img_height` and entries at odd index (the y
coordinates) by `img_width`. -/
def segFloat (imgHeight imgWidth : Nat) (s : List ℚ) : List ℚ :=
  s.enum.map (fun kx => if kx.1 % 2 = 0 then kx.2 / (imgHeight : ℚ) else kx.2 / (imgWidth : ℚ))

/-- Translation of lines 210-215 and 226-231: the normalized copy of a
bbox `(x, y, w, h)`: x-extent components divided by `img_width`,
y-extent components by `img_height`. -/
def bboxFloat (imgHeight imgWidth : Nat) (b : ℚ × ℚ × ℚ × ℚ) : List ℚ :=
  [b.1 / (imgWidth : ℚ), b.2.1 / (imgHeight : ℚ),
   b.2.2.1 / (imgWidth : ℚ), b.2.2.2 / (imgHeight : ℚ)]

/-! ### The pipeline -/

/-- The configuration surface of `seg_to_annotations` (defaults:
`remove_salt = true`, `rle_segmentations = false`,
`float_annotations = false`, `max_categories = 300`). -/
structure Options where
  remove_salt : Bool
  rle_segmentations : Bool
  float_annotations : Bool
  max_categories : Nat
  deriving DecidableEq, Inhabited

/-- The default option values of the source. -/
def defaultOptions : Options :=
  { remove_salt := true, rle_segmentations := false,
    float_annotations := false, max_categories := 300 }

/-- One annotation record as built in lines 233-251 of the source;
optional fields are `none` when their flag is off. -/
structure Ann where
  color : Color
  segmentation : List (List ℚ)
  bbox : ℚ × ℚ × ℚ × ℚ
  area : ℚ
  bboxes : List (ℚ × ℚ × ℚ × ℚ)
  areas : List ℚ
  segmentation_rle : Option RLE
  segmentation_float : Option (List (List ℚ))
  bbox_float : Option (List ℚ)
  area_float : Option ℚ
  bboxes_float : Option (List (List ℚ))
  areas_float : Option (List ℚ)
  deriving DecidableEq, Inhabited

/-- Morphological cleanup of a category mask (lines 160-166): opening,
followed by closing when `remove_salt` is set.  The opening and closing
operators themselves are skimage externals, taken as parameters. -/
def cleanedMask (opening closing : Mask → Mask) (removeSalt : Bool) (mask : Mask) : Mask :=
  if removeSalt then closing (opening mask) else opening mask

/-- The mask handed to `binary_mask_to_rle` (lines 169-172): the cleaned
mask padded by one background pixel on every side, before hole filling. -/
def rleInput (opening closing : Mask → Mask) (removeSalt : Bool) (mask : Mask) : Mask :=
  padMask (cleanedMask opening closing removeSalt mask)

/-- The mask handed to the contour tracer (lines 174-177): the same padded
mask after `ndi.binary_fill_holes`. -/
def tracerInput (opening closing : Mask → Mask) (removeSalt : Bool) (mask : Mask) : Mask :=
  fillHoles (rleInput opening closing removeSalt mask)

/-- The simplified polygons of a category (lines 191-200): each traced
contour is remapped out of the padded row/col frame and then simplified
(the shapely `simplify` step is the external `simplifyFn`). -/
def polysOf (simplifyFn : List (ℚ × ℚ) → List (ℚ × ℚ))
    (contours : List (List (ℚ × ℚ))) : List (List (ℚ × ℚ)) :=
  contours.map (fun ct => simplifyFn (ct.map remapPoint))

/-- The annotation record one category contributes (lines 184-251), given
its traced contours and the RLE of its padded mask. -/
def buildAnn (simplifyFn : List (ℚ × ℚ) → List (ℚ × ℚ)) (opts : Options)
    (imgHeight imgWidth : Nat) (c : Color) (rle : RLE)
    (contours : List (List (ℚ × ℚ))) : Ann :=
  let polys := polysOf simplifyFn contours
  let segmentations := polys.map (fun p => flattenCoords (closeRing p))
  let bboxes := polys.map polyBBox
  let areas := polys.map polyArea
  let mb := multiBounds polys
  let bbox := (mb.1, mb.2.1, mb.2.2.1 - mb.1, mb.2.2.2 - mb.2.1)
  let area := multiArea polys
  { color := c
    segmentation := segmentations
    bbox := bbox
    area := area
    bboxes := bboxes
    areas := areas
    segmentation_rle := if opts.rle_segmentations then some rle else none
    segmentation_float :=
      if opts.float_annotations then some (segmentations.map (segFloat imgHeight imgWidth)) else none
    bbox_float :=
      if opts.float_annotations then some (bboxFloat imgHeight imgWidth bbox) else none
    area_float :=
      if opts.float_annotations then some (area / ((imgWidth : ℚ) * (imgHeight : ℚ))) else none
    bboxes_float :=
      if opts.float_annotations then some (bboxes.map (bboxFloat imgHeight imgWidth)) else none
    areas_float :=
      if opts.float_annotations then
        some (areas.map (fun a => a / ((imgWidth : ℚ) * (imgHeight : ℚ)))) else none }

/-- The body of the per-category loop (lines 143-251): skip the background
color, build the category mask, clean and pad it, RLE-encode the padded
mask, trace contours on its hole-filled version, skip the category when
no contour is found, and otherwise build its annotation. -/
def processCategory (opening closing : Mask → Mask)
    (tracer : Mask → List (List (ℚ × ℚ))) (simplifyFn : List (ℚ × ℚ) → List (ℚ × ℚ))
    (opts : Options) (imgHeight imgWidth : Nat) (img : Image) (c : Color) : Option Ann :=
  if c = bgColor then none
  else
    let mask := categoryMask img c
    let padded := rleInput opening closing opts.remove_salt mask
    let contours := tracer (fillHoles padded)
    if contours.length = 0 then none
    else some (buildAnn simplifyFn opts imgHeight imgWidth c (binary_mask_to_rle padded) contours)

/-- Translation of `seg_to_annotations` (lines 124-252): discover the
distinct colors, fail when they exceed `max_categories` (the source
raises `ValueError(f...)` with this message), and otherwise process
every category in discovery order. -/
def seg_to_annotations (opening closing : Mask → Mask)
    (tracer : Mask → List (List (ℚ × ℚ))) (simplifyFn : List (ℚ × ℚ) → List (ℚ × ℚ))
    (opts : Options) (img : Image) : Except String (List Ann) :=
  let imgHeight := img.length
  let imgWidth := (img.headD []).length
  let uniq := uniqueColors img
  if uniq.length > opts.max_categories then
    Except.error ("Over " ++ toString opts.max_categories ++ " categories: " ++ toString uniq.length)
  else
    Except.ok (uniq.filterMap (processCategory opening closing tracer simplifyFn opts imgHeight imgWidth img))

/-! ### Front-end input handling (claim C9)

The source has no validation of the loaded raster.  `open_image`
(lines 25-38) swallows every exception and can return `None` (when
`io.imread` fails) or a 2-d array (a raster without a channel axis: the
`img.shape[2]` access raises inside the `try` and the partially
processed array is returned as is).  `seg_to_annotations` then reads
`img.shape[0]`, `img.shape[1]` (line 134) and
`img.reshape(-1, img.shape[2])` (line 136) with no check. -/

/-- Python exception kinds relevant to the front end, plus the dedicated
`InvalidImageError` the spec postulates (which the source never raises,
and which no code in the repository defines). -/
inductive PyExc
  | attributeError
  | indexError
  | invalidImage
  deriving DecidableEq

/-- The raster `open_image` hands to `seg_to_annotations`: missing
(`None`), a 2-d array without a channel axis, or a 3-d color raster. -/
inductive Raster
  | missing
  | gray (m : List (List ℚ))
  | rgb (m : Image)

/-- A raster is malformed when it is missing or lacks the channel axis. -/
def isMalformed : Raster → Bool
  | .missing => true
  | .gray _ => true
  | .rgb _ => false

/-- The front end of `seg_to_annotations` (lines 133-136): reading
`img.shape[0]` on `None` raises `AttributeError`; `img.shape[2]` on a
2-d raster raises `IndexError`; a 3-d raster proceeds with its height
and width.  Both failures happen before any color discovery or geometry
computation. -/
def segFront : Raster → Except PyExc (Nat × Nat)
  | .missing => Except.error PyExc.attributeError
  | .gray _ => Except.error PyExc.indexError
  | .rgb m => Except.ok (m.length, (m.headD []).length)

/-! ## Lemmas about the RLE codec -/

/-- Prepending a value and expanding commutes with run grouping. -/
theorem expandRuns_addRun (b : Bool) (rs : List (Bool × Nat)) :
    expandRuns (addRun b rs) = b :: expandRuns rs := by
  cases rs with
  | nil => rfl
  | cons p r =>
    obtain ⟨b', n⟩ := p
    by_cases h : b = b'
    · subst h
      simp [addRun, expandRuns, List.replicate_succ]
    · simp [addRun, h, expandRuns]

/-- Expanding the runs of a list gives the list back. -/
theorem expandRuns_runs (l : List Bool) : expandRuns (runs l) = l := by
  induction l with
  | nil => rfl
  | cons b t ih =>
    show expandRuns (addRun b (runs t)) = b :: t
    rw [expandRuns_addRun, ih]

/-- Adjacent runs carry alternating values. -/
def AltRuns (rs : List (Bool × Nat)) : Prop :=
  List.Chain' (fun p q => q.1 = !p.1) rs

/-- The first run produced by `addRun b` has value `b`. -/
theorem addRun_head (b : Bool) (rs : List (Bool × Nat)) :
    ∃ n r', addRun b rs = (b, n) :: r' := by
  cases rs with
  | nil => exact ⟨1, [], rfl⟩
  | cons p r =>
    obtain ⟨b', n⟩ := p
    by_cases h : b = b'
    · subst h
      exact ⟨n + 1, r, by simp [addRun]⟩
    · exact ⟨1, (b', n) :: r, by simp [addRun, h]⟩

/-- `addRun` preserves run alternation. -/
theorem altRuns_addRun (b : Bool) (rs : List (Bool × Nat)) (h : AltRuns rs) :
    AltRuns (addRun b rs) := by
  cases rs with
  | nil => simp [addRun, AltRuns]
  | cons p r =>
    obtain ⟨b', n⟩ := p
    by_cases hb : b = b'
    · subst hb
      unfold AltRuns at h ⊢
      have heq : addRun b ((b, n) :: r) = (b, n + 1) :: r := by simp [addRun]
      rw [heq]
      rw [List.chain'_cons'] at h ⊢
      simpa using h
    · unfold AltRuns at h ⊢
      simp only [addRun, if_neg hb]
      rw [List.chain'_cons]
      refine ⟨?_, h⟩
      cases b <;> cases b' <;> simp_all

/-- The runs of any list alternate. -/
theorem altRuns_runs (l : List Bool) : AltRuns (runs l) := by
  induction l with
  | nil => simp [runs, AltRuns]
  | cons b t ih => exact altRuns_addRun b (runs t) ih

/-- Decoding the run lengths of an alternating run list, starting from the
value of its first run, expands the runs. -/
theorem decodeRuns_expand (rs : List (Bool × Nat)) (h : AltRuns rs) :
    decodeRuns (rs.headD (false, 0)).1 (rs.map Prod.snd) = expandRuns rs := by
  induction rs with
  | nil => rfl
  | cons p rest ih =>
    show List.replicate p.2 p.1 ++ decodeRuns (!p.1) (rest.map Prod.snd)
        = List.replicate p.2 p.1 ++ expandRuns rest
    congr 1
    cases rest with
    | nil => rfl
    | cons q r =>
      have hq : q.1 = !p.1 := (List.chain'_cons.mp h).1
      have h2 := ih (List.chain'_cons.mp h).2
      simp only [List.headD_cons] at h2
      rw [← hq]
      exact h2

/-- Decoding the `counts` of a list under the background-first alternating
convention reproduces the list. -/
theorem decodeRuns_rleCounts (l : List Bool) : decodeRuns false (rleCounts l) = l := by
  conv_rhs => rw [← expandRuns_runs l]
  have halt := altRuns_runs l
  unfold rleCounts
  cases hr : runs l with
  | nil => rfl
  | cons p r =>
    rw [hr] at halt
    obtain ⟨b, n⟩ := p
    cases b with
    | false =>
      have := decodeRuns_expand ((false, n) :: r) halt
      simpa using this
    | true =>
      have := decodeRuns_expand ((true, n) :: r) halt
      show decodeRuns false (0 :: ((true, n) :: r).map Prod.snd) = _
      simpa [decodeRuns] using this

/-- Values of a list mapped over `range n`, read back through `getD`. -/
theorem getD_map_range {β : Type} (d : β) (f : Nat → β) {n i : Nat} (h : i < n) :
    ((List.range n).map f).getD i d = f i := by
  rw [List.getD_eq_getElem?_getD, List.getElem?_map, List.getElem?_range h]
  rfl

/-- Indexing the flattening of equal-length blocks: the entry at
`c * h + r` is entry `r` of block `c`. -/
theorem flatten_getD (h : Nat) :
    ∀ (cols : List (List Bool)), (∀ col ∈ cols, col.length = h) →
      ∀ {c r : Nat}, r < h → c < cols.length →
        cols.flatten.getD (c * h + r) false = (cols.getD c []).getD r false := by
  intro cols
  induction cols with
  | nil => intro _ c r _ hc; simp at hc
  | cons col rest ih =>
    intro hlen c r hr hc
    have hcol : col.length = h := hlen col (List.mem_cons_self col rest)
    cases c with
    | zero =>
      show (col ++ rest.flatten).getD (0 * h + r) false = col.getD r false
      rw [List.getD_eq_getElem?_getD, List.getD_eq_getElem?_getD]
      rw [List.getElem?_append]
      simp only [Nat.zero_mul, Nat.zero_add]
      rw [if_pos (by omega)]
    | succ c =>
      show (col ++ rest.flatten).getD ((c + 1) * h + r) false
          = (rest.getD c []).getD r false
      have hsm : (c + 1) * h = c * h + h := Nat.succ_mul c h
      rw [List.getD_eq_getElem?_getD, List.getElem?_append_right (by
        rw [hcol, hsm]; omega)]
      have hidx : (c + 1) * h + r - col.length = c * h + r := by
        rw [hcol, hsm]; omega
      rw [hidx, ← List.getD_eq_getElem?_getD]
      exact ih (fun x hx => hlen x (List.mem_cons_of_mem col hx)) hr
        (by simpa using hc)

/-- Reassembling the column-major flattening of a rectangular mask gives
the mask back. -/
theorem unflatten_flattenF (m : Mask) (hrect : rect m) :
    unflattenF m.length (maskW m) (flattenF m) = m := by
  have hcols_len : (colsOf m).length = maskW m := by
    simp [colsOf]
  have hcol_len : ∀ col ∈ colsOf m, col.length = m.length := by
    intro col hcol
    simp only [colsOf, List.mem_map] at hcol
    obtain ⟨c, _, rfl⟩ := hcol
    simp
  apply List.ext_getElem
  · simp [unflattenF]
  intro r h1 h2
  have hr : r < m.length := by simpa [unflattenF] using h1
  rw [show (unflattenF m.length (maskW m) (flattenF m))[r]
      = ((List.range m.length).map (fun r => (List.range (maskW m)).map
          (fun c => (flattenF m).getD (c * m.length + r) false)))[r] from rfl]
  rw [List.getElem_map, List.getElem_range]
  apply List.ext_getElem
  · simp only [List.length_map, List.length_range]
    exact (hrect m[r] (List.getElem_mem h2)).symm
  intro c hc1 hc2
  have hcw : c < maskW m := by simpa using hc1
  rw [List.getElem_map, List.getElem_range]
  have hflat : (flattenF m).getD (c * m.length + r) false
      = ((colsOf m).getD c []).getD r false :=
    flatten_getD m.length (colsOf m) hcol_len hr (by omega)
  rw [hflat]
  have hcol : (colsOf m).getD c [] = m.map (fun row => row.getD c false) := by
    unfold colsOf
    exact getD_map_range [] _ hcw
  rw [hcol, List.getD_eq_getElem _ _ (by simpa using hr), List.getElem_map]
  exact List.getD_eq_getElem _ _ (by
    rw [hrect m[r] (List.getElem_mem hr)]; exact hcw)

/-- Claim C3: the RLE encoder emits `counts` as alternating run lengths of
the column-major traversal starting with the background run (reading
`counts` back as alternating background/foreground runs reproduces the
traversal exactly), a leading zero-length background run is emitted when
the first traversed pixel is foreground, and decoding the produced
dictionary against its `size` reconstructs the original rectangular
mask. -/
theorem c3_rle_alternation_and_roundtrip (m : Mask) (hrect : rect m) :
    decodeRuns false (binary_mask_to_rle m).counts = flattenF m ∧
    ((flattenF m).head? = some true → (binary_mask_to_rle m).counts.head? = some 0) ∧
    rleDecode (binary_mask_to_rle m) = m := by
  refine ⟨decodeRuns_rleCounts (flattenF m), ?_, ?_⟩
  · intro hhead
    cases hl : flattenF m with
    | nil => rw [hl] at hhead; simp at hhead
    | cons b t =>
      rw [hl] at hhead
      have hb : b = true := by simpa using hhead
      subst hb
      show (rleCounts (flattenF m)).head? = some 0
      rw [hl]
      show (rleCounts (true :: t)).head? = some 0
      obtain ⟨n, r', har⟩ := addRun_head true (runs t)
      unfold rleCounts
      rw [show runs (true :: t) = addRun true (runs t) from rfl, har]
      rfl
  · show rleDecode { counts := rleCounts (flattenF m), size := [m.length, maskW m] } = m
    unfold rleDecode
    simp only
    rw [decodeRuns_rleCounts]
    exact unflatten_flattenF m hrect

/-- Witness for claim C3 at a concrete 2 × 3 mask whose first traversed
pixel is foreground. -/
theorem c3_witness :
    decodeRuns false (binary_mask_to_rle [[true, false, true], [false, true, true]]).counts
        = flattenF [[true, false, true], [false, true, true]] ∧
    ((flattenF [[true, false, true], [false, true, true]]).head? = some true →
      (binary_mask_to_rle [[true, false, true], [false, true, true]]).counts.head? = some 0) ∧
    rleDecode (binary_mask_to_rle [[true, false, true], [false, true, true]])
        = [[true, false, true], [false, true, true]] :=
  c3_rle_alternation_and_roundtrip [[true, false, true], [false, true, true]] (by decide)

/-! ## Pipeline extraction lemmas -/

/-- A mask transform that keeps the grid dimensions (as the skimage
morphological operators the source applies do). -/
def dimsPreserving (f : Mask → Mask) : Prop :=
  ∀ m, (f m).length = m.length ∧ maskW (f m) = maskW m

/-- Padding adds two rows. -/
theorem length_padMask (m : Mask) : (padMask m).length = m.length + 2 := by
  simp [padMask]

/-- Padding adds two columns. -/
theorem maskW_padMask (m : Mask) : maskW (padMask m) = maskW m + 2 := by
  simp [padMask, maskW]

/-- The category mask has the height of the image. -/
theorem length_categoryMask (img : Image) (c : Color) :
    (categoryMask img c).length = img.length := by
  simp [categoryMask]

/-- The category mask has the width of the image. -/
theorem maskW_categoryMask (img : Image) (c : Color) :
    maskW (categoryMask img c) = (img.headD []).length := by
  cases img with
  | nil => rfl
  | cons row rest => simp [categoryMask, maskW]

/-- The cleaned mask keeps the dimensions of the input mask when the
opening and closing operators do. -/
theorem dims_cleanedMask {opening closing : Mask → Mask}
    (hop : dimsPreserving opening) (hcl : dimsPreserving closing)
    (removeSalt : Bool) (m : Mask) :
    (cleanedMask opening closing removeSalt m).length = m.length ∧
      maskW (cleanedMask opening closing removeSalt m) = maskW m := by
  unfold cleanedMask
  cases removeSalt with
  | false => simpa using hop m
  | true =>
    simp only [if_pos rfl]
    obtain ⟨h1, h2⟩ := hcl (opening m)
    obtain ⟨h3, h4⟩ := hop m
    exact ⟨h1.trans h3, h2.trans h4⟩

/-- Elimination for a successful per-category step: the color was not
background and the annotation is the one built from the category's
padded cleaned mask and its traced contours. -/
theorem processCategory_eq_some {opening closing : Mask → Mask}
    {tracer : Mask → List (List (ℚ × ℚ))} {simplifyFn : List (ℚ × ℚ) → List (ℚ × ℚ)}
    {opts : Options} {imgH imgW : Nat} {img : Image} {c : Color} {a : Ann}
    (h : processCategory opening closing tracer simplifyFn opts imgH imgW img c = some a) :
    c ≠ bgColor ∧
      (tracer (tracerInput opening closing opts.remove_salt (categoryMask img c))).length ≠ 0 ∧
      a = buildAnn simplifyFn opts imgH imgW c
            (binary_mask_to_rle (rleInput opening closing opts.remove_salt (categoryMask img c)))
            (tracer (tracerInput opening closing opts.remove_salt (categoryMask img c))) := by
  simp only [processCategory] at h
  split at h
  · exact absurd h (by simp)
  next hbg =>
    split at h
    next hlen => exact absurd h (by simp)
    next hlen => exact ⟨hbg, hlen, (Option.some.inj h).symm⟩

/-- Elimination for a successful extraction: the annotation list is the
per-category map over the discovered colors. -/
theorem seg_ok_elim {opening closing : Mask → Mask}
    {tracer : Mask → List (List (ℚ × ℚ))} {simplifyFn : List (ℚ × ℚ) → List (ℚ × ℚ)}
    {opts : Options} {img : Image} {anns : List Ann}
    (h : seg_to_annotations opening closing tracer simplifyFn opts img = Except.ok anns) :
    anns = (uniqueColors img).filterMap
      (processCategory opening closing tracer simplifyFn opts img.length (img.headD []).length img) := by
  simp only [seg_to_annotations] at h
  split at h
  · exact absurd h (by simp)
  · exact (Except.ok.inj h).symm

/-- The `segmentation_rle` field of a built annotation. -/
theorem buildAnn_segmentation_rle (simplifyFn : List (ℚ × ℚ) → List (ℚ × ℚ))
    (opts : Options) (imgH imgW : Nat) (c : Color) (rle : RLE)
    (contours : List (List (ℚ × ℚ))) :
    (buildAnn simplifyFn opts imgH imgW c rle contours).segmentation_rle
      = if opts.rle_segmentations then some rle else none := rfl

/-- The `color` field of a built annotation. -/
theorem buildAnn_color (simplifyFn : List (ℚ × ℚ) → List (ℚ × ℚ))
    (opts : Options) (imgH imgW : Nat) (c : Color) (rle : RLE)
    (contours : List (List (ℚ × ℚ))) :
    (buildAnn simplifyFn opts imgH imgW c rle contours).color = c := rfl

/-- The `segmentation` field of a built annotation. -/
theorem buildAnn_segmentation (simplifyFn : List (ℚ × ℚ) → List (ℚ × ℚ))
    (opts : Options) (imgH imgW : Nat) (c : Color) (rle : RLE)
    (contours : List (List (ℚ × ℚ))) :
    (buildAnn simplifyFn opts imgH imgW c rle contours).segmentation
      = (polysOf simplifyFn contours).map (fun p => flattenCoords (closeRing p)) := rfl

/-- The `area` field of a built annotation. -/
theorem buildAnn_area (simplifyFn : List (ℚ × ℚ) → List (ℚ × ℚ))
    (opts : Options) (imgH imgW : Nat) (c : Color) (rle : RLE)
    (contours : List (List (ℚ × ℚ))) :
    (buildAnn simplifyFn opts imgH imgW c rle contours).area
      = multiArea (polysOf simplifyFn contours) := rfl

/-- The `areas` field of a built annotation. -/
theorem buildAnn_areas (simplifyFn : List (ℚ × ℚ) → List (ℚ × ℚ))
    (opts : Options) (imgH imgW : Nat) (c : Color) (rle : RLE)
    (contours : List (List (ℚ × ℚ))) :
    (buildAnn simplifyFn opts imgH imgW c rle contours).areas
      = (polysOf simplifyFn contours).map polyArea := rfl

/-- The `bbox` field of a built annotation. -/
theorem buildAnn_bbox (simplifyFn : List (ℚ × ℚ) → List (ℚ × ℚ))
    (opts : Options) (imgH imgW : Nat) (c : Color) (rle : RLE)
    (contours : List (List (ℚ × ℚ))) :
    (buildAnn simplifyFn opts imgH imgW c rle contours).bbox
      = ((multiBounds (polysOf simplifyFn contours)).1,
         (multiBounds (polysOf simplifyFn contours)).2.1,
         (multiBounds (polysOf simplifyFn contours)).2.2.1
           - (multiBounds (polysOf simplifyFn contours)).1,
         (multiBounds (polysOf simplifyFn contours)).2.2.2
           - (multiBounds (polysOf simplifyFn contours)).2.1) := rfl

/-- The `bboxes` field of a built annotation. -/
theorem buildAnn_bboxes (simplifyFn : List (ℚ × ℚ) → List (ℚ × ℚ))
    (opts : Options) (imgH imgW : Nat) (c : Color) (rle : RLE)
    (contours : List (List (ℚ × ℚ))) :
    (buildAnn simplifyFn opts imgH imgW c rle contours).bboxes
      = (polysOf simplifyFn contours).map polyBBox := rfl

/-! ## Claim C10 -/

/-- Claim C10: with `rle_segmentations` enabled, every emitted
`segmentation_rle.size` is `[height + 2, width + 2]` — the dimensions of
the border-padded mask — and never the original `[height, width]`.  The
opening and closing operators are assumed dimension-preserving, which
the skimage morphology the source calls is. -/
theorem c10_rle_size_padded (opening closing : Mask → Mask)
    (tracer : Mask → List (List (ℚ × ℚ))) (simplifyFn : List (ℚ × ℚ) → List (ℚ × ℚ))
    (opts : Options) (img : Image) (anns : List Ann) (a : Ann) (rle : RLE)
    (hop : dimsPreserving opening) (hcl : dimsPreserving closing)
    (hok : seg_to_annotations opening closing tracer simplifyFn opts img = Except.ok anns)
    (ha : a ∈ anns) (hr : a.segmentation_rle = some rle) :
    rle.size = [img.length + 2, (img.headD []).length + 2] ∧
      rle.size ≠ [img.length, (img.headD []).length] := by
  rw [seg_ok_elim hok] at ha
  rw [List.mem_filterMap] at ha
  obtain ⟨c, _, hpc⟩ := ha
  obtain ⟨-, -, rfl⟩ := processCategory_eq_some hpc
  rw [buildAnn_segmentation_rle] at hr
  have hrle : rle = binary_mask_to_rle
      (rleInput opening closing opts.remove_salt (categoryMask img c)) := by
    by_cases hflag : opts.rle_segmentations
    · rw [if_pos hflag] at hr
      exact (Option.some.inj hr).symm
    · rw [if_neg hflag] at hr
      exact absurd hr (by simp)
  subst hrle
  obtain ⟨hL, hW⟩ := dims_cleanedMask hop hcl opts.remove_salt (categoryMask img c)
  have hsize : (binary_mask_to_rle
      (rleInput opening closing opts.remove_salt (categoryMask img c))).size
      = [img.length + 2, (img.headD []).length + 2] := by
    show [(rleInput opening closing opts.remove_salt (categoryMask img c)).length,
          maskW (rleInput opening closing opts.remove_salt (categoryMask img c))] = _
    unfold rleInput
    rw [length_padMask, maskW_padMask, hL, hW, length_categoryMask, maskW_categoryMask]
  refine ⟨hsize, ?_⟩
  rw [hsize]
  intro hcontra
  have := List.head_eq_of_cons_eq hcontra
  omega

/-! ## A concrete pipeline run, used by several witnesses -/

/-- A concrete contour tracer standing in for `measure.find_contours`:
one rectangular contour in padded row/col coordinates. -/
def exTracer : Mask → List (List (ℚ × ℚ)) := fun _ => [[(1, 1), (1, 3), (2, 3), (2, 1)]]

/-- Concrete options: all flags on. -/
def exOpts : Options :=
  { remove_salt := true, rle_segmentations := true, float_annotations := true,
    max_categories := 300 }

/-- A concrete 1 × 3 image of one non-background color. -/
def exImg : Image := [[(1, 0, 0), (1, 0, 0), (1, 0, 0)]]

/-- The concrete extraction result. -/
def exRes : Except String (List Ann) := seg_to_annotations id id exTracer id exOpts exImg

/-- The concrete annotation list. -/
def exAnns : List Ann := exRes.toOption.getD []

/-- The single concrete annotation. -/
def exAnn : Ann := exAnns.headD default

/-- The concrete RLE attached to the annotation. -/
def exRle : RLE := exAnn.segmentation_rle.getD default

/-- Witness for claim C10: the concrete 1 × 3 image yields an RLE of size
`[3, 5]`, the padded dimensions. -/
theorem c10_witness :
    exRle.size = [exImg.length + 2, (exImg.headD []).length + 2] ∧
      exRle.size ≠ [exImg.length, (exImg.headD []).length] :=
  c10_rle_size_padded id id exTracer id exOpts exImg exAnns exAnn exRle
    (fun _ => ⟨rfl, rfl⟩) (fun _ => ⟨rfl, rfl⟩) rfl
    (by rw [show exAnns = [exAnn] from rfl]; exact List.mem_singleton.mpr rfl) rfl

/-! ## Claim C4 -/

/-- Reading a cell of a map-over-ranges grid inside the grid bounds. -/
theorem getCell_map_range (f : Nat → Nat → Bool) {h w r c : Nat}
    (hr : r < h) (hc : c < w) :
    getCell ((List.range h).map (fun r => (List.range w).map (fun c => f r c))) r c
      = f r c := by
  unfold getCell
  rw [getD_map_range [] _ hr, getD_map_range false _ hc]

/-- Hole filling only adds foreground: every foreground cell of a
rectangular mask is foreground after `fillHoles`. -/
theorem fillHoles_superset {m : Mask} (hrect : rect m) {r c : Nat}
    (h : getCell m r c = true) : getCell (fillHoles m) r c = true := by
  have hr : r < m.length := by
    by_contra hr
    push_neg at hr
    have : m.getD r [] = [] := List.getD_eq_default _ _ hr
    rw [getCell, this] at h
    simp at h
  have hc : c < maskW m := by
    by_contra hc
    push_neg at hc
    have hrow : m.getD r [] = m[r] := List.getD_eq_getElem _ _ hr
    have hlen : m[r].length = maskW m := hrect m[r] (List.getElem_mem hr)
    rw [getCell, hrow] at h
    have : m[r].getD c false = false := List.getD_eq_default _ _ (by omega)
    rw [this] at h
    exact absurd h (by simp)
  unfold fillHoles
  rw [getCell_map_range _ hr hc, h]
  rfl

set_option maxRecDepth 40000 in
/-- The claim that the RLE stage and the contour tracer consume the same
mask is false: on a 3 × 3 ring mask (whose padded form has an enclosed
hole at its center) the mask handed to `binary_mask_to_rle` differs from
the mask handed to `measure.find_contours`, because the latter is
hole-filled (lines 171-177 of the source). -/
theorem c4_counterexample :
    rleInput id id true [[true, true, true], [true, false, true], [true, true, true]]
      ≠ tracerInput id id true [[true, true, true], [true, false, true], [true, true, true]] := by
  decide

/-- Claim C4, amended: the mask RLE-encoded is the padded cleaned mask
before hole filling, the tracer consumes its hole-filled version, and
the traced mask contains the RLE mask pointwise; the two coincide only
when the padded mask has no enclosed holes. -/
theorem c4_amended_tracer_mask_superset (opening closing : Mask → Mask)
    (removeSalt : Bool) (mask : Mask) (r c : Nat)
    (hrect : rect (rleInput opening closing removeSalt mask))
    (h : getCell (rleInput opening closing removeSalt mask) r c = true) :
    tracerInput opening closing removeSalt mask
        = fillHoles (rleInput opening closing removeSalt mask) ∧
      getCell (tracerInput opening closing removeSalt mask) r c = true :=
  ⟨rfl, fillHoles_superset hrect h⟩

/-- Witness for the amended claim C4 at a concrete 1 × 1 mask and the
foreground cell of its padding. -/
theorem c4_witness :
    tracerInput id id true [[true]] = fillHoles (rleInput id id true [[true]]) ∧
      getCell (tracerInput id id true [[true]]) 1 1 = true :=
  c4_amended_tracer_mask_superset id id true [[true]] 1 1 (by decide) (by decide)

/-! ## Claim C2 -/

/-- Claim C2: when the distinct colors discovered (background included)
exceed `max_categories` the whole extraction fails with the over-limit
error and no annotation list is returned, and when they do not exceed it
no such failure occurs. -/
theorem c2_category_limit (opening closing : Mask → Mask)
    (tracer : Mask → List (List (ℚ × ℚ))) (simplifyFn : List (ℚ × ℚ) → List (ℚ × ℚ))
    (opts : Options) (img : Image) :
    ((uniqueColors img).length > opts.max_categories →
      seg_to_annotations opening closing tracer simplifyFn opts img
        = Except.error ("Over " ++ toString opts.max_categories ++ " categories: "
            ++ toString (uniqueColors img).length)) ∧
    ((uniqueColors img).length ≤ opts.max_categories →
      ∃ anns, seg_to_annotations opening closing tracer simplifyFn opts img
        = Except.ok anns) := by
  constructor
  · intro h
    simp only [seg_to_annotations]
    rw [if_pos h]
  · intro h
    simp only [seg_to_annotations]
    rw [if_neg (by omega)]
    exact ⟨_, rfl⟩

/-- Witness for claim C2: a 1 × 2 image with two distinct colors fails
against a limit of 1, and the concrete 1 × 3 image passes the default
limit. -/
theorem c2_witness :
    ((uniqueColors [[(1, 0, 0), (0, 1, 0)]]).length > 1 ∧
      seg_to_annotations id id exTracer id
          { remove_salt := true, rle_segmentations := false,
            float_annotations := false, max_categories := 1 }
          [[(1, 0, 0), (0, 1, 0)]]
        = Except.error ("Over " ++ toString 1 ++ " categories: "
            ++ toString (uniqueColors [[(1, 0, 0), (0, 1, 0)]]).length)) ∧
    ((uniqueColors exImg).length ≤ exOpts.max_categories ∧
      ∃ anns, seg_to_annotations id id exTracer id exOpts exImg = Except.ok anns) :=
  ⟨⟨by decide,
    (c2_category_limit id id exTracer id
      { remove_salt := true, rle_segmentations := false,
        float_annotations := false, max_categories := 1 }
      [[(1, 0, 0), (0, 1, 0)]]).1 (by decide)⟩,
   ⟨by decide,
    (c2_category_limit id id exTracer id exOpts exImg).2 (by decide)⟩⟩

/-! ## Claim C6 -/

/-- The background color is never processed into an annotation. -/
theorem processCategory_bg (opening closing : Mask → Mask)
    (tracer : Mask → List (List (ℚ × ℚ))) (simplifyFn : List (ℚ × ℚ) → List (ℚ × ℚ))
    (opts : Options) (imgH imgW : Nat) (img : Image) :
    processCategory opening closing tracer simplifyFn opts imgH imgW img bgColor = none := by
  simp [processCategory]

/-- The sorted distinct colors of an all-background pixel list collapse to
at most the background color itself. -/
theorem uniqueColors_all_bg :
    ∀ l : List Color, (∀ x ∈ l, x = bgColor) →
      l.foldr insertColor [] = [] ∨ l.foldr insertColor [] = [bgColor] := by
  intro l
  induction l with
  | nil => exact fun _ => Or.inl rfl
  | cons x t ih =>
    intro hall
    have hx : x = bgColor := hall x (List.mem_cons_self x t)
    have ht := ih (fun y hy => hall y (List.mem_cons_of_mem x hy))
    subst hx
    have hfr : (bgColor :: t).foldr insertColor []
        = insertColor bgColor (t.foldr insertColor []) := rfl
    rw [hfr]
    rcases ht with h | h <;> rw [h]
    · right; decide
    · right; decide

/-- Claim C6: no returned annotation carries the all-zero background
color, and an image whose pixels are all background yields an empty
annotation list (for any positive category limit). -/
theorem c6_background_never_annotated (opening closing : Mask → Mask)
    (tracer : Mask → List (List (ℚ × ℚ))) (simplifyFn : List (ℚ × ℚ) → List (ℚ × ℚ))
    (opts : Options) :
    (∀ img anns,
      seg_to_annotations opening closing tracer simplifyFn opts img = Except.ok anns →
        ∀ a ∈ anns, a.color ≠ bgColor) ∧
    (∀ n k, 0 < opts.max_categories →
      seg_to_annotations opening closing tracer simplifyFn opts
          (List.replicate n (List.replicate k bgColor)) = Except.ok []) := by
  constructor
  · intro img anns hok a ha
    rw [seg_ok_elim hok, List.mem_filterMap] at ha
    obtain ⟨c, -, hpc⟩ := ha
    obtain ⟨hbg, -, rfl⟩ := processCategory_eq_some hpc
    rw [buildAnn_color]
    exact hbg
  · intro n k hmax
    have hall : ∀ x ∈ (List.replicate n (List.replicate k bgColor) : Image).flatten,
        x = bgColor := by
      intro x hx
      rw [List.mem_flatten] at hx
      obtain ⟨row, hrow, hx⟩ := hx
      have := List.eq_of_mem_replicate hrow
      subst this
      exact List.eq_of_mem_replicate hx
    have huniq := uniqueColors_all_bg _ hall
    have hlen : (uniqueColors (List.replicate n (List.replicate k bgColor))).length
        ≤ opts.max_categories := by
      unfold uniqueColors
      rcases huniq with h | h
      · rw [h]; exact Nat.zero_le _
      · rw [h]; exact hmax
    simp only [seg_to_annotations]
    rw [if_neg (by omega)]
    have : uniqueColors (List.replicate n (List.replicate k bgColor)) = []
        ∨ uniqueColors (List.replicate n (List.replicate k bgColor)) = [bgColor] := huniq
    rcases this with h | h <;> rw [h]
    · rfl
    · rw [List.filterMap_cons]
      rw [processCategory_bg]
      rfl

/-- Witness for claim C6: the concrete extraction's annotation is not
background-colored, and a 2 × 2 all-background image yields no
annotations. -/
theorem c6_witness :
    exAnn.color ≠ bgColor ∧
      seg_to_annotations id id exTracer id exOpts
          (List.replicate 2 (List.replicate 2 bgColor)) = Except.ok [] :=
  ⟨(c6_background_never_annotated id id exTracer id exOpts).1 exImg exAnns rfl exAnn
      (by rw [show exAnns = [exAnn] from rfl]; exact List.mem_singleton.mpr rfl),
   (c6_background_never_annotated id id exTracer id exOpts).2 2 2 (by decide)⟩

/-! ## Claim C7 -/

/-- Lexicographic color order is transitive. -/
theorem colorLt_trans {a b c : Color} (h1 : ColorLt a b) (h2 : ColorLt b c) :
    ColorLt a c := by
  unfold ColorLt at *
  rcases h1 with h1 | ⟨e1, h1⟩ <;> rcases h2 with h2 | ⟨e2, h2⟩
  · exact Or.inl (lt_trans h1 h2)
  · exact Or.inl (lt_of_lt_of_eq h1 e2)
  · exact Or.inl (lt_of_eq_of_lt e1 h2)
  · refine Or.inr ⟨e1.trans e2, ?_⟩
    rcases h1 with h1 | ⟨f1, h1⟩ <;> rcases h2 with h2 | ⟨f2, h2⟩
    · exact Or.inl (lt_trans h1 h2)
    · exact Or.inl (lt_of_lt_of_eq h1 f2)
    · exact Or.inl (lt_of_eq_of_lt f1 h2)
    · exact Or.inr ⟨f1.trans f2, lt_trans h1 h2⟩

/-- Lexicographic color order is total on distinct colors. -/
theorem colorLt_of_not_lt {a b : Color} (h1 : ¬ ColorLt a b) (h2 : a ≠ b) :
    ColorLt b a := by
  unfold ColorLt at *
  rcases lt_trichotomy a.1 b.1 with h | h | h
  · exact absurd (Or.inl h) h1
  · rcases lt_trichotomy a.2.1 b.2.1 with g | g | g
    · exact absurd (Or.inr ⟨h, Or.inl g⟩) h1
    · rcases lt_trichotomy a.2.2 b.2.2 with f | f | f
      · exact absurd (Or.inr ⟨h, Or.inr ⟨g, f⟩⟩) h1
      · exact absurd (Prod.ext h (Prod.ext g f)) h2
      · exact Or.inr ⟨h.symm, Or.inr ⟨g.symm, f⟩⟩
    · exact Or.inr ⟨h.symm, Or.inl g⟩
  · exact Or.inl h

/-- Membership after an ordered insert. -/
theorem mem_insertColor {c x : Color} :
    ∀ {l : List Color}, x ∈ insertColor c l → x = c ∨ x ∈ l := by
  intro l
  induction l with
  | nil => intro h; simpa [insertColor] using h
  | cons d t ih =>
    intro h
    unfold insertColor at h
    split at h
    · rcases List.mem_cons.mp h with rfl | h
      · exact Or.inl rfl
      · exact Or.inr h
    · split at h
      · exact Or.inr h
      · rcases List.mem_cons.mp h with rfl | h
        · exact Or.inr (List.mem_cons_self _ _)
        · rcases ih h with h | h
          · exact Or.inl h
          · exact Or.inr (List.mem_cons_of_mem _ h)

/-- Ordered insert preserves strict lexicographic sortedness. -/
theorem pairwise_insertColor {c : Color} :
    ∀ {l : List Color}, l.Pairwise ColorLt → (insertColor c l).Pairwise ColorLt := by
  intro l
  induction l with
  | nil => intro _; simp [insertColor]
  | cons d t ih =>
    intro hp
    rw [List.pairwise_cons] at hp
    obtain ⟨hd, ht⟩ := hp
    unfold insertColor
    split
    next hlt =>
      rw [List.pairwise_cons]
      refine ⟨?_, List.pairwise_cons.mpr ⟨hd, ht⟩⟩
      intro y hy
      rcases List.mem_cons.mp hy with rfl | hy
      · exact hlt
      · exact colorLt_trans hlt (hd y hy)
    next hnlt =>
      split
      next heq => exact List.pairwise_cons.mpr ⟨hd, ht⟩
      next hne =>
        rw [List.pairwise_cons]
        refine ⟨?_, ih ht⟩
        intro y hy
        rcases mem_insertColor hy with rfl | hy
        · exact colorLt_of_not_lt hnlt hne
        · exact hd y hy

/-- The discovered colors are strictly ascending lexicographically. -/
theorem pairwise_uniqueColors (img : Image) :
    (uniqueColors img).Pairwise ColorLt := by
  unfold uniqueColors
  induction img.flatten with
  | nil => simp
  | cons x t ih => exact pairwise_insertColor ih

/-- An order-compatible `filterMap` preserves pairwise ordering. -/
theorem pairwise_filterMap_ann {f : Color → Option Ann}
    (hf : ∀ {a b x y}, ColorLt a b → f a = some x → f b = some y →
      ColorLt x.color y.color) :
    ∀ {l : List Color}, l.Pairwise ColorLt →
      (l.filterMap f).Pairwise (fun x y => ColorLt x.color y.color) := by
  intro l
  induction l with
  | nil => simp
  | cons c t ih =>
    intro hp
    rw [List.pairwise_cons] at hp
    obtain ⟨hc, ht⟩ := hp
    cases hfc : f c with
    | none => simp only [List.filterMap_cons, hfc]; exact ih ht
    | some x =>
      simp only [List.filterMap_cons, hfc]
      rw [List.pairwise_cons]
      refine ⟨?_, ih ht⟩
      intro y hy
      rw [List.mem_filterMap] at hy
      obtain ⟨b, hb, hfb⟩ := hy
      exact hf (hc b hb) hfc hfb

/-- Claim C7: the returned annotations are sorted in strictly ascending
lexicographic order of their category colors, and the extraction is
deterministic: any two successful runs on the same image agree. -/
theorem c7_deterministic_ascending_order (opening closing : Mask → Mask)
    (tracer : Mask → List (List (ℚ × ℚ))) (simplifyFn : List (ℚ × ℚ) → List (ℚ × ℚ))
    (opts : Options) (img : Image) (anns : List Ann)
    (hok : seg_to_annotations opening closing tracer simplifyFn opts img = Except.ok anns) :
    (anns.map (fun a => a.color)).Pairwise ColorLt ∧
      (∀ anns2,
        seg_to_annotations opening closing tracer simplifyFn opts img = Except.ok anns2 →
          anns2 = anns) := by
  constructor
  · rw [seg_ok_elim hok, List.pairwise_map]
    refine pairwise_filterMap_ann ?_ (pairwise_uniqueColors img)
    intro a b x y hab hx hy
    obtain ⟨-, -, rfl⟩ := processCategory_eq_some hx
    obtain ⟨-, -, rfl⟩ := processCategory_eq_some hy
    rw [buildAnn_color, buildAnn_color]
    exact hab
  · intro anns2 h2
    exact (seg_ok_elim h2).trans (seg_ok_elim hok).symm

/-- Witness for claim C7: the concrete extraction's colors are sorted. -/
theorem c7_witness : (exAnns.map (fun a => a.color)).Pairwise ColorLt :=
  (c7_deterministic_ascending_order id id exTracer id exOpts exImg exAnns rfl).1

/-! ## Claim C5 -/

/-- Folding an associative operation pulls out of the accumulator. -/
theorem foldl_pull {α : Type} (op : α → α → α)
    (hassoc : ∀ x y z, op (op x y) z = op x (op y z)) :
    ∀ (l : List α) (a b : α), l.foldl op (op a b) = op a (l.foldl op b) := by
  intro l
  induction l with
  | nil => intro a b; rfl
  | cons x t ih =>
    intro a b
    show t.foldl op (op (op a b) x) = op a ((x :: t).foldl op b)
    rw [hassoc a b x, ih]
    rfl

/-- The minimum of a concatenation of nonempty lists. -/
theorem listMin_append {xs ys : List ℚ} (hx : xs ≠ []) (hy : ys ≠ []) :
    listMin (xs ++ ys) = min (listMin xs) (listMin ys) := by
  cases xs with
  | nil => exact absurd rfl hx
  | cons x t =>
    cases ys with
    | nil => exact absurd rfl hy
    | cons y s =>
      show (t ++ y :: s).foldl min x = min (t.foldl min x) (s.foldl min y)
      rw [List.foldl_append]
      show s.foldl min (min (t.foldl min x) y) = _
      rw [foldl_pull min min_assoc s (t.foldl min x) y]

/-- The maximum of a concatenation of nonempty lists. -/
theorem listMax_append {xs ys : List ℚ} (hx : xs ≠ []) (hy : ys ≠ []) :
    listMax (xs ++ ys) = max (listMax xs) (listMax ys) := by
  cases xs with
  | nil => exact absurd rfl hx
  | cons x t =>
    cases ys with
    | nil => exact absurd rfl hy
    | cons y s =>
      show (t ++ y :: s).foldl max x = max (t.foldl max x) (s.foldl max y)
      rw [List.foldl_append]
      show s.foldl max (max (t.foldl max x) y) = _
      rw [foldl_pull max max_assoc s (t.foldl max x) y]

/-- Bounds of a concatenation of nonempty vertex lists combine. -/
theorem polyBounds_append {ps qs : List (ℚ × ℚ)} (hp : ps ≠ []) (hq : qs ≠ []) :
    polyBounds (ps ++ qs) = combine2 (polyBounds ps) (polyBounds qs) := by
  have h1 : ps.map Prod.fst ≠ [] := by simpa using hp
  have h2 : ps.map Prod.snd ≠ [] := by simpa using hp
  have h3 : qs.map Prod.fst ≠ [] := by simpa using hq
  have h4 : qs.map Prod.snd ≠ [] := by simpa using hq
  unfold polyBounds combine2
  simp only [List.map_append]
  rw [listMin_append h1 h3, listMin_append h2 h4, listMax_append h1 h3, listMax_append h2 h4]

/-- The envelope combinator is associative. -/
theorem combine2_assoc (x y z : ℚ × ℚ × ℚ × ℚ) :
    combine2 (combine2 x y) z = combine2 x (combine2 y z) := by
  simp [combine2, min_assoc, max_assoc]

/-- The envelope of a cons, when the tail is nonempty. -/
theorem combineBounds_cons {b : ℚ × ℚ × ℚ × ℚ} {bs : List (ℚ × ℚ × ℚ × ℚ)}
    (h : bs ≠ []) : combineBounds (b :: bs) = combine2 b (combineBounds bs) := by
  cases bs with
  | nil => exact absurd rfl h
  | cons b2 t =>
    show (b2 :: t).foldl combine2 b = combine2 b (t.foldl combine2 b2)
    show t.foldl combine2 (combine2 b b2) = _
    rw [foldl_pull combine2 combine2_assoc t b b2]

/-- The multi-polygon bounds are the envelope of the per-polygon bounds,
for a nonempty family of nonempty polygons.  This is exactly how GEOS
computes the bounds of a shapely `MultiPolygon`. -/
theorem multiBounds_eq_combineBounds :
    ∀ (polys : List (List (ℚ × ℚ))), polys ≠ [] → (∀ p ∈ polys, p ≠ []) →
      multiBounds polys = combineBounds (polys.map polyBounds) := by
  intro polys
  induction polys with
  | nil => intro h _; exact absurd rfl h
  | cons p rest ih =>
    intro _ hall
    have hp : p ≠ [] := hall p (List.mem_cons_self p rest)
    cases rest with
    | nil =>
      show polyBounds (p ++ []) = _
      rw [List.append_nil]
      rfl
    | cons q t =>
      have hq : q ≠ [] := hall q (List.mem_cons_of_mem p (List.mem_cons_self q t))
      have hflat : (q :: t : List (List (ℚ × ℚ))).flatten ≠ [] := by
        cases q with
        | nil => exact absurd rfl hq
        | cons v vs => simp
      have hrec := ih (by simp) (fun r hr => hall r (List.mem_cons_of_mem p hr))
      show polyBounds (p ++ (q :: t : List (List (ℚ × ℚ))).flatten) = _
      rw [polyBounds_append hp hflat]
      rw [show polyBounds ((q :: t : List (List (ℚ × ℚ))).flatten)
          = multiBounds (q :: t) from rfl]
      rw [hrec]
      rw [show List.map polyBounds (p :: q :: t)
          = polyBounds p :: List.map polyBounds (q :: t) from rfl]
      rw [combineBounds_cons (by simp)]

/-- A per-contour bbox carries exactly the contour's bounds. -/
theorem bboxToBounds_polyBBox (p : List (ℚ × ℚ)) :
    bboxToBounds (polyBBox p) = polyBounds p := by
  unfold bboxToBounds polyBBox
  obtain ⟨x, y, mx, my⟩ := polyBounds p
  have h1 : x + (mx - x) = mx := by ring
  have h2 : y + (my - y) = my := by ring
  simp only
  rw [h1, h2]

/-- A second concrete tracer, yielding the same square contour twice. -/
def exTracer2 : Mask → List (List (ℚ × ℚ)) :=
  fun _ => [[(1, 1), (1, 2), (2, 2), (2, 1)], [(1, 1), (1, 2), (2, 2), (2, 1)]]

/-- The claim that the category-level area is the area of the
multi-polygon union is false: in this category run the two traced
contour polygons are identical unit squares, so the union of their
regions is a single unit square of area 1 (the area of one copy,
last-but-one conjunct), yet the emitted category area is 2 — shapely's
`MultiPolygon.area` sums member areas and double-counts the overlap. -/
theorem c5_counterexample :
    (processCategory id id exTracer2 id exOpts 1 3 exImg (1, 0, 0)).map
        (fun a => (a.segmentation, a.areas, a.area))
      = some ([[0, 0, 1, 0, 1, 1, 0, 1, 0, 0], [0, 0, 1, 0, 1, 1, 0, 1, 0, 0]],
              [1, 1], 2) ∧
      multiArea [[(0, 0), (1, 0), (1, 1), (0, 1)]] = 1 ∧ (2 : ℚ) ≠ 1 := by
  refine ⟨?_, ?_, by norm_num⟩
  · norm_num [processCategory, exTracer2, exOpts, exImg, bgColor, buildAnn, polysOf,
      remapPoint, closeRing, flattenCoords, polyArea, shoelaceAux, cross, ratAbs,
      multiArea, Prod.ext_iff]
  · norm_num [multiArea, polyArea, shoelaceAux, cross, ratAbs]

/-- Claim C5, amended: the category-level bbox is the min/max envelope of
the per-contour bounds (as claimed), but the category-level area is the
SUM of the per-contour polygon areas — shapely's `MultiPolygon.area` —
which equals the union area only when the contours' interiors are
pairwise disjoint. -/
theorem c5_amended_bbox_envelope_area_sum (opening closing : Mask → Mask)
    (tracer : Mask → List (List (ℚ × ℚ))) (simplifyFn : List (ℚ × ℚ) → List (ℚ × ℚ))
    (opts : Options) (img : Image) (anns : List Ann) (a : Ann)
    (htr : ∀ mk ct, ct ∈ tracer mk → ct ≠ [])
    (hsf : ∀ l, l ≠ [] → simplifyFn l ≠ [])
    (hok : seg_to_annotations opening closing tracer simplifyFn opts img = Except.ok anns)
    (ha : a ∈ anns) :
    a.area = a.areas.sum ∧
      a.bbox = ((combineBounds (a.bboxes.map bboxToBounds)).1,
                (combineBounds (a.bboxes.map bboxToBounds)).2.1,
                (combineBounds (a.bboxes.map bboxToBounds)).2.2.1
                  - (combineBounds (a.bboxes.map bboxToBounds)).1,
                (combineBounds (a.bboxes.map bboxToBounds)).2.2.2
                  - (combineBounds (a.bboxes.map bboxToBounds)).2.1) := by
  rw [seg_ok_elim hok, List.mem_filterMap] at ha
  obtain ⟨c, -, hpc⟩ := ha
  obtain ⟨-, hlen, rfl⟩ := processCategory_eq_some hpc
  have hpolys_ne : polysOf simplifyFn
      (tracer (tracerInput opening closing opts.remove_salt (categoryMask img c))) ≠ [] := by
    unfold polysOf
    intro hnil
    rw [List.map_eq_nil_iff] at hnil
    exact hlen (by rw [hnil]; rfl)
  have hpoly_each : ∀ p ∈ polysOf simplifyFn
      (tracer (tracerInput opening closing opts.remove_salt (categoryMask img c))), p ≠ [] := by
    intro p hp
    unfold polysOf at hp
    rw [List.mem_map] at hp
    obtain ⟨ct, hct, rfl⟩ := hp
    apply hsf
    intro hctnil
    rw [List.map_eq_nil_iff] at hctnil
    exact htr _ ct hct hctnil
  constructor
  · rw [buildAnn_area, buildAnn_areas]
    rfl
  · rw [buildAnn_bbox, buildAnn_bboxes, List.map_map]
    have hcomp : bboxToBounds ∘ polyBBox = polyBounds := funext bboxToBounds_polyBBox
    rw [hcomp, ← multiBounds_eq_combineBounds _ hpolys_ne hpoly_each]

/-- Witness for the amended claim C5 at the concrete run. -/
theorem c5_witness :
    exAnn.area = exAnn.areas.sum ∧
      exAnn.bbox = ((combineBounds (exAnn.bboxes.map bboxToBounds)).1,
                (combineBounds (exAnn.bboxes.map bboxToBounds)).2.1,
                (combineBounds (exAnn.bboxes.map bboxToBounds)).2.2.1
                  - (combineBounds (exAnn.bboxes.map bboxToBounds)).1,
                (combineBounds (exAnn.bboxes.map bboxToBounds)).2.2.2
                  - (combineBounds (exAnn.bboxes.map bboxToBounds)).2.1) :=
  c5_amended_bbox_envelope_area_sum id id exTracer id exOpts exImg exAnns exAnn
    (by
      intro mk ct h
      rw [show exTracer mk = [[(1, 1), (1, 3), (2, 3), (2, 1)]] from rfl] at h
      rw [List.mem_singleton] at h
      subst h
      simp)
    (fun _ h => h) rfl
    (by rw [show exAnns = [exAnn] from rfl]; exact List.mem_singleton.mpr rfl)

/-! ## Claim C8 -/

/-- Regrouping a flattened coordinate list recovers the points. -/
theorem unflattenPairs_flattenCoords :
    ∀ pts : List (ℚ × ℚ), unflattenPairs (flattenCoords pts) = pts := by
  intro pts
  induction pts with
  | nil => rfl
  | cons p t ih =>
    show unflattenPairs (p.1 :: p.2 :: flattenCoords t) = p :: t
    show (p.1, p.2) :: unflattenPairs (flattenCoords t) = p :: t
    rw [ih]

/-- Claim C8: the remap stage sends a traced point `(row, col)` in
padded-image coordinates to `(x, y) = (col - 1, row - 1)`, and —
provided the simplifier only keeps vertices of its input, as
Douglas-Peucker simplification does — every coordinate pair reported in
an annotation's `segmentation` is the remap of some point of a contour
traced for that annotation's category. -/
theorem c8_unpadded_xy_coordinates (opening closing : Mask → Mask)
    (tracer : Mask → List (List (ℚ × ℚ))) (simplifyFn : List (ℚ × ℚ) → List (ℚ × ℚ))
    (opts : Options) (img : Image) (anns : List Ann) (a : Ann)
    (s : List ℚ) (p : ℚ × ℚ)
    (hsimp : ∀ l q, q ∈ simplifyFn l → q ∈ l)
    (hok : seg_to_annotations opening closing tracer simplifyFn opts img = Except.ok anns)
    (ha : a ∈ anns) (hs : s ∈ a.segmentation) (hp : p ∈ unflattenPairs s) :
    (∀ r c : ℚ, remapPoint (r, c) = (c - 1, r - 1)) ∧
      ∃ ct ∈ tracer (tracerInput opening closing opts.remove_salt (categoryMask img a.color)),
        ∃ q ∈ ct, p = remapPoint q := by
  refine ⟨fun r c => rfl, ?_⟩
  rw [seg_ok_elim hok, List.mem_filterMap] at ha
  obtain ⟨c, -, hpc⟩ := ha
  obtain ⟨-, -, rfl⟩ := processCategory_eq_some hpc
  rw [buildAnn_color]
  rw [buildAnn_segmentation] at hs
  rw [List.mem_map] at hs
  obtain ⟨poly, hpoly, rfl⟩ := hs
  unfold polysOf at hpoly
  rw [List.mem_map] at hpoly
  obtain ⟨ct, hct, rfl⟩ := hpoly
  rw [unflattenPairs_flattenCoords] at hp
  have hp2 : p ∈ simplifyFn (ct.map remapPoint) := by
    unfold closeRing at hp
    rcases List.mem_append.mp hp with h | h
    · exact h
    · exact List.take_subset 1 _ h
  have hp3 := hsimp _ _ hp2
  rw [List.mem_map] at hp3
  obtain ⟨q, hq, rfl⟩ := hp3
  exact ⟨ct, hct, q, hq, rfl⟩

/-- Witness for claim C8 at the concrete run, taking the first coordinate
pair of the annotation's first segmentation list. -/
theorem c8_witness :
    (∀ r c : ℚ, remapPoint (r, c) = (c - 1, r - 1)) ∧
      ∃ ct ∈ exTracer (tracerInput id id exOpts.remove_salt (categoryMask exImg exAnn.color)),
        ∃ q ∈ ct,
          (unflattenPairs (exAnn.segmentation.headD [])).headD (0, 0) = remapPoint q :=
  c8_unpadded_xy_coordinates id id exTracer id exOpts exImg exAnns exAnn
    (exAnn.segmentation.headD []) ((unflattenPairs (exAnn.segmentation.headD [])).headD (0, 0))
    (fun _ _ h => h) rfl
    (by rw [show exAnns = [exAnn] from rfl]; exact List.mem_singleton.mpr rfl)
    (by
      rw [show exAnn.segmentation = [exAnn.segmentation.headD []] from rfl]
      exact List.mem_singleton.mpr rfl)
    (by
      rw [show unflattenPairs (exAnn.segmentation.headD [])
          = (unflattenPairs (exAnn.segmentation.headD [])).headD (0, 0)
              :: (unflattenPairs (exAnn.segmentation.headD [])).tail from rfl]
      exact List.mem_cons_self _ _)

/-! ## Claim C1 -/

/-- Claim C1 names a code bug.  On the concrete 1 × 3 image (height 1,
width 3) the pixel-space segmentation contains the x coordinate 2, but
`segmentation_float` reports 2 for it — the source divides even-index
(x) entries by `img_height` and odd-index (y) entries by `img_width`
(line 205), the opposite of the claimed convention and of the one the
same function uses for `bbox_float`.  The emitted value 2 exceeds 1,
and differs from the claimed `x / img_width = 2/3`. -/
theorem c1_segmentation_float_divides_x_by_height :
    (seg_to_annotations id id exTracer id exOpts exImg).map
        (List.map (fun a => (a.segmentation, a.segmentation_float)))
      = Except.ok [([[0, 0, 2, 0, 2, 1, 0, 1, 0, 0]],
                    some [[0, 0, 2, 0, 2, 1 / 3, 0, 1 / 3, 0, 0]])] ∧
      ¬ ((2 : ℚ) ≤ 1) ∧ (2 : ℚ) ≠ 2 / 3 := by
  refine ⟨?_, by norm_num, by norm_num⟩
  norm_num [seg_to_annotations, uniqueColors, insertColor, ColorLt, exImg, exOpts,
    processCategory, exTracer, bgColor, buildAnn, polysOf, remapPoint, closeRing,
    flattenCoords, segFloat, List.enum, List.enumFrom, Prod.ext_iff,
    List.filterMap_cons, List.filterMap_nil, Except.map]

/-! ## Claim C9 -/

/-- The claim that malformed input is checked explicitly and fails with a
dedicated `InvalidImageError` is false: no such error exists anywhere in
the repository, and a missing raster (where `open_image` returns `None`)
instead fails with the incidental `AttributeError` raised by the
unguarded `img.shape[0]` access. -/
theorem c9_counterexample :
    segFront Raster.missing = Except.error PyExc.attributeError ∧
      PyExc.attributeError ≠ PyExc.invalidImage :=
  ⟨rfl, by decide⟩

/-- Claim C9, amended: the source performs no explicit raster validation;
a malformed raster (missing, or lacking the channel axis) still fails
before any color discovery or geometry computation, but through an
incidental Python exception (`AttributeError` or `IndexError`), never a
dedicated `InvalidImageError`. -/
theorem c9_amended_incidental_failure (r : Raster) (h : isMalformed r = true) :
    ∃ e, segFront r = Except.error e ∧ e ≠ PyExc.invalidImage := by
  cases r with
  | missing => exact ⟨PyExc.attributeError, rfl, by decide⟩
  | gray m => exact ⟨PyExc.indexError, rfl, by decide⟩
  | rgb m => exact absurd h (by simp [isMalformed])

/-- Witness for the amended claim C9 at the missing raster. -/
theorem c9_witness :
    ∃ e, segFront Raster.missing = Except.error e ∧ e ≠ PyExc.invalidImage :=
  c9_amended_incidental_failure Raster.missing rfl

end Zpy








